import Mathlib

/-!
Verification of the advising-assistance program (`ProjectTwo.cpp`).

The development shallowly embeds the program's core data structures:

* `Prerequisite` / `PrereqHashTable` — the open-addressing hash table of
  prerequisite course ids.  A C++ `Prerequisite` overlays a `char[8]` buffer
  with a `u_int64_t`; we model the union's numeric view as a `Nat` that packs
  the first (at most) 7 bytes of the id little-endian, exactly as `load`
  produces it on little-endian hardware.  Characters are identified with
  their byte values (the program's data is ASCII CSV text).
* `Course` and `Course.init` — one CSV record and its line parser.
* `Tree` with `Insert` / `inOrder` / `Search` — the `BinarySearchTree` of
  courses keyed by `Course.number`.
* `Driver.loadCourses` / `checkPrerequisites` — the load-and-validate
  protocol.

String comparison in the C++ source is `std::string`'s lexicographic
byte-wise `operator<`; it is modelled by the executable `charsLt`/`strLt`
below rather than by Mathlib's `String.ltb`, so that everything evaluates
by `decide`/`rfl`.
-/

namespace ProjectTwo

/-- Lexicographic strict comparison of character lists, by code point —
the model of `std::string::operator<` (byte-wise on the program's ASCII
data). -/
def charsLt : List Char → List Char → Bool
  | [], [] => false
  | [], _ :: _ => true
  | _ :: _, [] => false
  | a :: as, b :: bs =>
    if a.toNat < b.toNat then true
    else if b.toNat < a.toNat then false
    else charsLt as bs

/-- `s < t` on C++ strings. -/
def strLt (s t : String) : Bool :=
  charsLt s.data t.data

/-! ### Prerequisite (the union of `char courseId[8]` with `u_int64_t num`) -/

/-- Little-endian packing of a byte list into a number: the value of the
union's `num` view when the bytes occupy the low positions of a zeroed
8-byte buffer. -/
def packBytes : List Char → Nat
  | [] => 0
  | c :: cs => c.toNat + 256 * packBytes cs

/-- `Prerequisite::load`: `id.copy(this->courseId, 7)` copies at most the
first 7 bytes of `id` into the zero-initialised buffer; the union's `num`
view is the little-endian value of those bytes. -/
def Prerequisite.load (id : String) : Nat :=
  packBytes (id.data.take 7)

/-- `Prerequisite::hash`: `(this->num + idx) % cap`. -/
def Prerequisite.hash (num idx cap : Nat) : Nat :=
  (num + idx) % cap

/-- Reading the buffer of a `Prerequisite` back as a C string: bytes from
the low position upward until a zero byte (the buffer holds 8 bytes, so at
most 8 are examined). -/
def decodeBytes : Nat → Nat → List Char
  | 0, _ => []
  | fuel + 1, n => if n % 256 = 0 then [] else Char.ofNat (n % 256) :: decodeBytes fuel (n / 256)

/-- `Prerequisite::getString`: `string out(this->courseId)`. -/
def Prerequisite.getString (num : Nat) : String :=
  String.mk (decodeBytes 8 num)

/-- `Prerequisite::empty`: `this->num == 0`. -/
def Prerequisite.isUnused (num : Nat) : Bool :=
  num = 0

/-! ### PrereqHashTable

The table is its `items` array: a list of `num` values, one per slot,
`0` meaning an empty slot.  `DEFAULT_PREREQUISITE_TABLE_SIZE` is 27. -/

def DEFAULT_PREREQUISITE_TABLE_SIZE : Nat := 27

/-- A freshly constructed `PrereqHashTable(27)`: `new Prerequisite[27]`,
every slot zero. -/
def freshTable : List Nat :=
  List.replicate DEFAULT_PREREQUISITE_TABLE_SIZE 0

/-- The probe loop of `PrereqHashTable::insert`: `fuel` counts the
remaining iterations (the loop runs `idx = j, j+1, …` while `idx < cap`,
so `fuel = cap - j` at entry).  At each slot `(num + idx) % cap`: break on
a matching entry, write and break on an empty slot, otherwise keep
probing. -/
def insertGo (T : List Nat) (num cap : Nat) : Nat → Nat → List Nat
  | 0, _ => T
  | fuel + 1, j =>
    let s := Prerequisite.hash num j cap
    if T.getD s 0 = num then T
    else if T.getD s 0 = 0 then T.set s num
    else insertGo T num cap fuel (j + 1)

/-- `PrereqHashTable::insert` on the packed value. -/
def insertNum (T : List Nat) (num : Nat) : List Nat :=
  insertGo T num T.length T.length 0

/-- `PrereqHashTable::insert(string courseId)`: load the id into a fresh
`Prerequisite` and run the probe loop. -/
def PrereqHashTable.insert (T : List Nat) (courseId : String) : List Nat :=
  insertNum T (Prerequisite.load courseId)

/-- A sequence of `insert` calls, in order. -/
def registerAll (T : List Nat) (ids : List String) : List Nat :=
  ids.foldl PrereqHashTable.insert T

/-! ### Course and its line parser -/

structure Course where
  number : String
  title : String
  prerequisites : List String
deriving DecidableEq

/-- `Course::clear` (also the state of a default-constructed `Course`). -/
def Course.cleared : Course :=
  ⟨"", "", []⟩

/-- `Course::empty`: `this->number.empty()`. -/
def Course.isUnused (c : Course) : Bool :=
  c.number.data.isEmpty

/-- Splitting a line at commas, as the repeated
`getline(stream, field, ',')` calls of `Course::init` produce the
fields: a trailing comma yields a final empty field, the empty line one
empty field. -/
def splitFields : List Char → List (List Char)
  | [] => [[]]
  | c :: rest =>
    if c = ',' then [] :: splitFields rest
    else
      match splitFields rest with
      | f :: fs => (c :: f) :: fs
      | [] => [[c]]

/-- The comma-separated fields of a line, as strings. -/
def lineFields (line : String) : List String :=
  (splitFields line.data).map String.mk

/-- The first field: the course number read by the first `getline`. -/
def keyField (line : String) : String :=
  (lineFields line).headD ""

/-- The second field: the title read by the second `getline` (empty when
the line has no second field, as a failed `getline` leaves the string
empty). -/
def titleField (line : String) : String :=
  ((lineFields line).drop 1).headD ""

/-- The skip test of the prerequisite loop:
`(pr.size() == 1 && pr[0] == '\r') || pr.empty()`. -/
def skipField (pr : String) : Bool :=
  (pr.data.length = 1 && pr.data.headD ' ' = '\r') || pr.data.isEmpty

/-- The trailing fields that become prerequisites (the loop keeps every
field beyond the title that is neither empty nor a lone carriage
return). -/
def prereqFields (line : String) : List String :=
  ((lineFields line).drop 2).filter (fun pr => !skipField pr)

inductive ParseError where
  | malformedKey
  | emptyTitle
deriving DecidableEq

/-- The pure part of `Course::init`: parse one line into the `Course`
fields, or fail.  `runtime_error("Error: invalid course number")` when the
first field is not 7 characters, `runtime_error("Error: empty course
title")` when the second is empty; on failure `this->clear()` has run, so
the record is the cleared one. -/
def parseLine (line : String) : Course × Option ParseError :=
  if (keyField line).data.length ≠ 7 then (Course.cleared, some .malformedKey)
  else if (titleField line).data.isEmpty then (Course.cleared, some .emptyTitle)
  else ({ number := keyField line, title := titleField line,
          prerequisites := prereqFields line }, none)

/-- `Course::init(line, table)`: parse the line; each kept prerequisite is
appended to the record and inserted into the hash table.  On a parse
failure the table is untouched (the exception is thrown before the
prerequisite loop). -/
def Course.init (line : String) (T : List Nat) : Course × List Nat × Option ParseError :=
  match parseLine line with
  | (c, none) => (c, c.prerequisites.foldl PrereqHashTable.insert T, none)
  | (c, some e) => (c, T, some e)

/-! ### BinarySearchTree -/

inductive Tree where
  | leaf
  | node (left : Tree) (course : Course) (right : Tree)
deriving DecidableEq

/-- `BinarySearchTree::Insert` together with `addNode`: descend left when
the new course's number is less than the node's, otherwise (greater *or
equal*) descend right; attach at the first missing child (or become the
root of an empty tree). -/
def Insert : Tree → Course → Tree
  | .leaf, c => .node .leaf c .leaf
  | .node l c' r, c =>
    if strLt c.number c'.number then .node (Insert l c) c' r
    else .node l c' (Insert r c)

/-- `BinarySearchTree::inOrder`: the in-order visit sequence (each visited
course is printed). -/
def inOrder : Tree → List Course
  | .leaf => []
  | .node l c r => inOrder l ++ c :: inOrder r

/-- The keys of the tree in visit order. -/
def treeKeys (t : Tree) : List String :=
  (inOrder t).map Course.number

/-- `BinarySearchTree::Search`: descend from the root; return the course
at the first node whose number equals the query, or an empty course when
the descent falls off the tree. -/
def Search : Tree → String → Course
  | .leaf, _ => Course.cleared
  | .node l c r, k =>
    if c.number = k then c
    else if strLt k c.number then Search l k
    else Search r k

/-- `BinarySearchTree::Exists`: search, then test
`!course.number.empty()`. -/
def TreeExists (t : Tree) (k : String) : Bool :=
  !(Search t k).number.data.isEmpty

/-- `BinarySearchTree::drain` leaves the empty tree; building a tree from
a list of courses by repeated `Insert` starting from the drained tree. -/
def buildTree (l : List Course) : Tree :=
  l.foldl Insert .leaf

/-! ### Driver -/

inductive LoadError where
  | parse (e : ParseError)
  | unresolved (key : String)
deriving DecidableEq

/-- The state a `Driver` carries across menu operations: the course tree
and the prerequisite hash table. -/
structure DriverState where
  tree : Tree
  table : List Nat
deriving DecidableEq

/-- The state after `Driver::Driver()`: empty tree,
`new PrereqHashTable(DEFAULT_PREREQUISITE_TABLE_SIZE)`. -/
def DriverState.fresh : DriverState :=
  ⟨.leaf, freshTable⟩

/-- `Driver::checkPrerequisites`: walk the table's slots in index order;
for each non-empty slot, rebuild the string and test `tree.Exists`; report
the first course that fails, `none` when all resolve. -/
def checkPrerequisites (t : Tree) (T : List Nat) : Option String :=
  ((T.filter (fun n => n ≠ 0)).map Prerequisite.getString).find?
    (fun course => !TreeExists t course)

/-- The line-reading loop of `Driver::loadCourses`: initialise a `Course`
from each line and insert it into the tree; a parse failure propagates
out, leaving the courses inserted so far and the table as `init` left
it. -/
def loadLines : List String → Tree → List Nat → Tree × List Nat × Option ParseError
  | [], t, T => (t, T, none)
  | line :: rest, t, T =>
    match Course.init line T with
    | (c, T', none) => loadLines rest (Insert t c) T'
    | (_, T', some e) => (t, T', some e)

/-- `Driver::loadCourses`: drain the tree, read every line, then run the
prerequisite check; throw on a parse failure or an unresolved
prerequisite, otherwise report the number of loaded courses.  The
resulting `DriverState` is the driver's state when control returns (or
the exception escapes). -/
def Driver.loadCourses (lines : List String) (st : DriverState) :
    DriverState × Except LoadError Nat :=
  match loadLines lines .leaf st.table with
  | (t, T, some e) => (⟨t, T⟩, .error (.parse e))
  | (t, T, none) =>
    match checkPrerequisites t T with
    | some k => (⟨t, T⟩, .error (.unresolved k))
    | none => (⟨t, T⟩, .ok lines.length)

/-- The prerequisite keys a load of these lines passes to
`PrereqHashTable::insert`, in call order (registration stops at the first
line that fails to parse). -/
def registeredKeys : List String → List String
  | [] => []
  | line :: rest =>
    match parseLine line with
    | (c, none) => c.prerequisites ++ registeredKeys rest
    | (_, some _) => []

deriving instance DecidableEq for Except

/-! ### Invariants used by the verification -/

/-- The search-tree shape `addNode` maintains on distinct keys: all keys
of the left subtree are strictly below the node's, all keys of the right
strictly above. -/
inductive IsBST : Tree → Prop
  | leaf : IsBST .leaf
  | node {l : Tree} {c : Course} {r : Tree} :
      (∀ k ∈ treeKeys l, strLt k c.number = true) →
      (∀ k ∈ treeKeys r, strLt c.number k = true) →
      IsBST l → IsBST r → IsBST (.node l c r)

/-- Every occupied slot of the hash table is reachable by its own probe
sequence: slot `i` holding `num` is `(num + j) % cap` for some probe
index `j` whose earlier probes all landed on slots that are occupied by
other values.  Every table reachable from the fresh one satisfies this,
and it is what makes re-inserting a present key a no-op. -/
def WellFormed (T : List Nat) : Prop :=
  ∀ i, i < T.length → T.getD i 0 ≠ 0 →
    ∃ j, j < T.length ∧ Prerequisite.hash (T.getD i 0) j T.length = i ∧
      ∀ m, m < j →
        T.getD (Prerequisite.hash (T.getD i 0) m T.length) 0 ≠ 0 ∧
        T.getD (Prerequisite.hash (T.getD i 0) m T.length) 0 ≠ T.getD i 0

instance : DecidablePred WellFormed := by
  intro T
  unfold WellFormed
  infer_instance

/-! ## Order theory of the string comparison -/

theorem char_toNat_injective {c d : Char} (h : c.toNat = d.toNat) : c = d := by
  apply Char.ext
  apply UInt32.ext
  simpa [Char.toNat] using h

theorem charsLt_irrefl (l : List Char) : charsLt l l = false := by
  induction l with
  | nil => rfl
  | cons a as ih => simp [charsLt, ih]

theorem charsLt_trans :
    ∀ {l₁ l₂ l₃ : List Char},
      charsLt l₁ l₂ = true → charsLt l₂ l₃ = true → charsLt l₁ l₃ = true
  | [], _ :: _, _ :: _, _, _ => rfl
  | a :: as, b :: bs, c :: cs, h₁, h₂ => by
    simp only [charsLt] at h₁ h₂ ⊢
    by_cases hab : a.toNat < b.toNat <;> by_cases hbc : b.toNat < c.toNat <;>
      simp only [hab, hbc, if_pos, if_neg, if_true, if_false] at h₁ h₂ ⊢
    · have : a.toNat < c.toNat := hab.trans hbc
      simp [this]
    · rcases Nat.lt_or_ge c.toNat b.toNat with h | h
      · simp at h₂
        omega
      · have : a.toNat < c.toNat := Nat.lt_of_lt_of_le hab h
        simp [this]
    · rcases Nat.lt_or_ge b.toNat a.toNat with h | h
      · simp at h₁
        omega
      · have : a.toNat < c.toNat := Nat.lt_of_le_of_lt h hbc
        simp [this]
    · rcases Nat.lt_or_ge b.toNat a.toNat with h | h
      · simp at h₁
        omega
      · rcases Nat.lt_or_ge c.toNat b.toNat with h' | h'
        · simp at h₂
          omega
        · have hac : ¬ a.toNat < c.toNat := by omega
          have hca : ¬ c.toNat < a.toNat := by omega
          simp only [hac, if_neg, if_false, hca]
          simp only [Bool.if_false_left, Bool.and_eq_true, Bool.not_eq_true', decide_eq_false_iff_not] at h₁ h₂
          exact charsLt_trans h₁.2 h₂.2

theorem charsLt_eq_of_not_lt :
    ∀ {l₁ l₂ : List Char}, charsLt l₁ l₂ = false → charsLt l₂ l₁ = false → l₁ = l₂
  | [], [], _, _ => rfl
  | [], _ :: _, h₁, _ => by simp [charsLt] at h₁
  | _ :: _, [], _, h₂ => by simp [charsLt] at h₂
  | a :: as, b :: bs, h₁, h₂ => by
    simp only [charsLt] at h₁ h₂
    by_cases hab : a.toNat < b.toNat
    · simp [hab] at h₁
    · by_cases hba : b.toNat < a.toNat
      · simp [hba, hab] at h₂
      · simp only [hab, hba, if_neg, if_false] at h₁ h₂
        have hc : a = b := char_toNat_injective (by omega)
        subst hc
        rw [charsLt_eq_of_not_lt h₁ h₂]

theorem charsLt_asymm {l₁ l₂ : List Char}
    (h : charsLt l₁ l₂ = true) : charsLt l₂ l₁ = false := by
  cases h' : charsLt l₂ l₁ with
  | false => rfl
  | true =>
    have := charsLt_trans h h'
    rw [charsLt_irrefl] at this
    cases this

theorem strLt_irrefl (s : String) : strLt s s = false :=
  charsLt_irrefl s.data

theorem strLt_trans {s t u : String}
    (h₁ : strLt s t = true) (h₂ : strLt t u = true) : strLt s u = true :=
  charsLt_trans h₁ h₂

theorem strLt_asymm {s t : String} (h : strLt s t = true) : strLt t s = false :=
  charsLt_asymm h

theorem strLt_eq_of_not_lt {s t : String}
    (h₁ : strLt s t = false) (h₂ : strLt t s = false) : s = t :=
  String.ext (charsLt_eq_of_not_lt h₁ h₂)

theorem strLt_of_ne_of_not_lt {s t : String}
    (h₁ : strLt s t = false) (h₂ : s ≠ t) : strLt t s = true := by
  cases h : strLt t s with
  | true => rfl
  | false => exact absurd (strLt_eq_of_not_lt h₁ h) h₂

/-! ## The binary search tree invariant -/

theorem inOrder_Insert (t : Tree) (c : Course) :
    (inOrder (Insert t c)).Perm (c :: inOrder t) := by
  induction t with
  | leaf => simp [Insert, inOrder]
  | node l c' r ihl ihr =>
    cases h : strLt c.number c'.number with
    | true =>
      have hI : Insert (Tree.node l c' r) c = .node (Insert l c) c' r := by
        simp [Insert, h]
      rw [hI]
      exact ihl.append_right (c' :: inOrder r)
    | false =>
      have hI : Insert (Tree.node l c' r) c = .node l c' (Insert r c) := by
        simp [Insert, h]
      rw [hI]
      show (inOrder l ++ c' :: inOrder (Insert r c)).Perm (c :: (inOrder l ++ c' :: inOrder r))
      have h1 : (inOrder l ++ c' :: inOrder (Insert r c)).Perm
          (inOrder l ++ c' :: c :: inOrder r) :=
        List.Perm.append_left _ (List.Perm.cons c' ihr)
      refine h1.trans ?_
      have h2 : inOrder l ++ c' :: c :: inOrder r
          = (inOrder l ++ [c']) ++ c :: inOrder r := by simp
      have h3 : ((inOrder l ++ [c']) ++ c :: inOrder r).Perm
          (c :: ((inOrder l ++ [c']) ++ inOrder r)) := List.perm_middle
      rw [h2]
      refine h3.trans ?_
      have h4 : (inOrder l ++ [c']) ++ inOrder r = inOrder l ++ c' :: inOrder r := by simp
      rw [h4]

theorem treeKeys_Insert (t : Tree) (c : Course) :
    (treeKeys (Insert t c)).Perm (c.number :: treeKeys t) :=
  (inOrder_Insert t c).map Course.number

theorem IsBST_Insert {t : Tree} {c : Course}
    (hb : IsBST t) (hk : c.number ∉ treeKeys t) : IsBST (Insert t c) := by
  induction hb with
  | leaf =>
    refine IsBST.node ?_ ?_ IsBST.leaf IsBST.leaf <;> simp [treeKeys, inOrder]
  | @node l c' r hl hr bl br ihl ihr =>
    have hkeys : treeKeys (Tree.node l c' r) = treeKeys l ++ c'.number :: treeKeys r := by
      simp [treeKeys, inOrder]
    rw [hkeys] at hk
    simp only [List.mem_append, List.mem_cons, not_or] at hk
    cases h : strLt c.number c'.number with
    | true =>
      have hI : Insert (Tree.node l c' r) c = .node (Insert l c) c' r := by
        simp [Insert, h]
      rw [hI]
      refine IsBST.node ?_ hr (ihl hk.1) br
      intro k hkmem
      rcases List.mem_cons.mp ((treeKeys_Insert l c).mem_iff.mp hkmem) with rfl | hmem
      · exact h
      · exact hl k hmem
    | false =>
      have hI : Insert (Tree.node l c' r) c = .node l c' (Insert r c) := by
        simp [Insert, h]
      rw [hI]
      have hlt : strLt c'.number c.number = true :=
        strLt_of_ne_of_not_lt h hk.2.1
      refine IsBST.node hl ?_ bl (ihr hk.2.2)
      intro k hkmem
      rcases List.mem_cons.mp ((treeKeys_Insert r c).mem_iff.mp hkmem) with rfl | hmem
      · exact hlt
      · exact hr k hmem

theorem sorted_treeKeys {t : Tree} (hb : IsBST t) :
    (treeKeys t).Pairwise (fun a b => strLt a b = true) := by
  induction hb with
  | leaf => exact List.Pairwise.nil
  | @node l c r hl hr _ _ ihl ihr =>
    have hkeys : treeKeys (Tree.node l c r) = treeKeys l ++ c.number :: treeKeys r := by
      simp [treeKeys, inOrder]
    rw [hkeys]
    rw [List.pairwise_append]
    refine ⟨ihl, List.pairwise_cons.mpr ⟨hr, ihr⟩, ?_⟩
    intro a ha b hb
    rcases List.mem_cons.mp hb with rfl | hb
    · exact hl a ha
    · exact strLt_trans (hl a ha) (hr b hb)

theorem inOrder_foldl_Insert :
    ∀ (l : List Course) (t : Tree), (inOrder (l.foldl Insert t)).Perm (inOrder t ++ l)
  | [], t => by simp
  | c :: cs, t => by
    simp only [List.foldl_cons]
    have h1 := inOrder_foldl_Insert cs (Insert t c)
    have h2 : (inOrder (Insert t c) ++ cs).Perm ((c :: inOrder t) ++ cs) :=
      (inOrder_Insert t c).append_right cs
    have h4 : (inOrder t ++ c :: cs).Perm (c :: (inOrder t ++ cs)) := List.perm_middle
    exact (h1.trans h2).trans h4.symm

theorem inOrder_buildTree (l : List Course) : (inOrder (buildTree l)).Perm l := by
  simpa [inOrder] using inOrder_foldl_Insert l .leaf

theorem IsBST_foldl :
    ∀ (l : List Course) (t : Tree), IsBST t →
      (treeKeys t ++ l.map Course.number).Nodup → IsBST (l.foldl Insert t)
  | [], t, hb, _ => hb
  | c :: cs, t, hb, hn => by
    simp only [List.foldl_cons]
    have hmem : c.number ∉ treeKeys t := by
      rw [List.nodup_append] at hn
      intro hc
      exact hn.2.2 hc (by simp)
    refine IsBST_foldl cs (Insert t c) (IsBST_Insert hb hmem) ?_
    refine List.Perm.nodup ?_ hn
    have h1 : (treeKeys t ++ c.number :: cs.map Course.number).Perm
        (c.number :: (treeKeys t ++ cs.map Course.number)) := List.perm_middle
    have h2 : ((c.number :: treeKeys t) ++ cs.map Course.number).Perm
        (treeKeys (Insert t c) ++ cs.map Course.number) :=
      ((treeKeys_Insert t c).symm).append_right _
    exact h1.trans h2

theorem IsBST_buildTree {l : List Course}
    (hn : (l.map Course.number).Nodup) : IsBST (buildTree l) :=
  IsBST_foldl l .leaf IsBST.leaf (by simpa [treeKeys, inOrder])

/-! ## Search correctness over the invariant -/

theorem Search_mem {t : Tree} (hb : IsBST t) :
    ∀ {c : Course}, c ∈ inOrder t → Search t c.number = c := by
  induction hb with
  | leaf => intro c hc; simp [inOrder] at hc
  | @node l c' r hl hr _ _ ihl ihr =>
    intro c hc
    simp only [inOrder, List.mem_append, List.mem_cons] at hc
    rcases hc with hc | rfl | hc
    · have hlt : strLt c.number c'.number = true :=
        hl c.number (List.mem_map_of_mem Course.number hc)
      have hne : c'.number ≠ c.number := by
        intro he
        rw [he, strLt_irrefl] at hlt
        cases hlt
      have hS : Search (Tree.node l c' r) c.number = Search l c.number := by
        simp [Search, hne, hlt]
      rw [hS]
      exact ihl hc
    · simp [Search]
    · have hlt : strLt c'.number c.number = true :=
        hr c.number (List.mem_map_of_mem Course.number hc)
      have hne : c'.number ≠ c.number := by
        intro he
        rw [he, strLt_irrefl] at hlt
        cases hlt
      have hnlt : strLt c.number c'.number = false := strLt_asymm hlt
      have hS : Search (Tree.node l c' r) c.number = Search r c.number := by
        simp [Search, hne, hnlt]
      rw [hS]
      exact ihr hc

theorem Search_not_mem {t : Tree} (hb : IsBST t) :
    ∀ {k : String}, k ∉ treeKeys t → Search t k = Course.cleared := by
  induction hb with
  | leaf => intro k _; rfl
  | @node l c' r hl hr _ _ ihl ihr =>
    intro k hk
    have hkeys : treeKeys (Tree.node l c' r) = treeKeys l ++ c'.number :: treeKeys r := by
      simp [treeKeys, inOrder]
    rw [hkeys] at hk
    simp only [List.mem_append, List.mem_cons, not_or] at hk
    have hne : c'.number ≠ k := fun he => hk.2.1 he.symm
    cases h : strLt k c'.number with
    | true =>
      have hS : Search (Tree.node l c' r) k = Search l k := by
        simp [Search, hne, h]
      rw [hS]
      exact ihl hk.1
    | false =>
      have hS : Search (Tree.node l c' r) k = Search r k := by
        simp [Search, hne, h]
      rw [hS]
      exact ihr hk.2.2

/-! ## The probe loop of the hash table -/

theorem getD_set_self {T : List Nat} {i v : Nat} (h : i < T.length) :
    (T.set i v).getD i 0 = v := by
  simp [List.getD_eq_getElem?_getD, List.getElem?_set_self, h]

theorem getD_set_ne {T : List Nat} {i j v : Nat} (h : i ≠ j) :
    (T.set i v).getD j 0 = T.getD j 0 := by
  simp [List.getD_eq_getElem?_getD, List.getElem?_set_ne h]

/-- Probe slots are injective in the probe index: distinct probe indices
below the capacity land on distinct slots. -/
theorem probe_inj (num cap m k : Nat) (hm : m < cap) (hk : k < cap)
    (h : (num + m) % cap = (num + k) % cap) : m = k := by
  rcases Nat.lt_trichotomy m k with hlt | he | hlt
  · have hd : cap ∣ num + k - (num + m) := (Nat.modEq_iff_dvd' (by omega)).mp h
    have := Nat.le_of_dvd (by omega) hd
    omega
  · exact he
  · have hd : cap ∣ num + m - (num + k) := (Nat.modEq_iff_dvd' (by omega)).mp h.symm
    have := Nat.le_of_dvd (by omega) hd
    omega

/-- The probe sequence visits every slot: the loop of
`PrereqHashTable::insert` runs `capacity` probes, which cover the whole
array. -/
theorem probe_surj (num cap i : Nat) (hcap : 0 < cap) (hi : i < cap) :
    ∃ k, k < cap ∧ (num + k) % cap = i := by
  have hr : num % cap < cap := Nat.mod_lt _ hcap
  have hdm := Nat.div_add_mod num cap
  rcases le_or_lt (num % cap) i with hle | hlt
  · refine ⟨i - num % cap, by omega, ?_⟩
    have h1 : num + (i - num % cap) = cap * (num / cap) + i := by omega
    rw [h1, Nat.mul_add_mod, Nat.mod_eq_of_lt hi]
  · refine ⟨cap + i - num % cap, by omega, ?_⟩
    have h2 : cap * (num / cap + 1) = cap * (num / cap) + cap := Nat.mul_succ cap (num / cap)
    have h1 : num + (cap + i - num % cap) = cap * (num / cap + 1) + i := by omega
    rw [h1, Nat.mul_add_mod, Nat.mod_eq_of_lt hi]

/-- Complete case analysis of the probe loop: either every probe in the
window `[j, j + fuel)` hit an occupied, non-matching slot and the table
is returned unchanged, or there is a first probe `k` that found either a
matching entry (table unchanged) or an empty slot (entry written
there). -/
theorem insertGo_spec (T : List Nat) (num cap : Nat) :
    ∀ (fuel j : Nat),
      ((∀ k, j ≤ k → k < j + fuel →
          T.getD (Prerequisite.hash num k cap) 0 ≠ 0 ∧
          T.getD (Prerequisite.hash num k cap) 0 ≠ num) ∧
        insertGo T num cap fuel j = T) ∨
      (∃ k, j ≤ k ∧ k < j + fuel ∧
        (∀ m, j ≤ m → m < k →
          T.getD (Prerequisite.hash num m cap) 0 ≠ 0 ∧
          T.getD (Prerequisite.hash num m cap) 0 ≠ num) ∧
        ((T.getD (Prerequisite.hash num k cap) 0 = num ∧ insertGo T num cap fuel j = T) ∨
         (T.getD (Prerequisite.hash num k cap) 0 = 0 ∧ num ≠ 0 ∧
          insertGo T num cap fuel j = T.set (Prerequisite.hash num k cap) num))) := by
  intro fuel
  induction fuel with
  | zero =>
    intro j
    exact Or.inl ⟨fun k h1 h2 => absurd h2 (by omega), rfl⟩
  | succ fuel ih =>
    intro j
    by_cases h1 : T.getD (Prerequisite.hash num j cap) 0 = num
    · refine Or.inr ⟨j, Nat.le_refl j, by omega,
        fun m hm1 hm2 => absurd hm2 (by omega), Or.inl ⟨h1, ?_⟩⟩
      simp only [insertGo]
      rw [if_pos h1]
    · by_cases h2 : T.getD (Prerequisite.hash num j cap) 0 = 0
      · refine Or.inr ⟨j, Nat.le_refl j, by omega,
          fun m hm1 hm2 => absurd hm2 (by omega),
          Or.inr ⟨h2, fun he => h1 (by rw [h2, he]), ?_⟩⟩
        simp only [insertGo]
        rw [if_neg h1, if_pos h2]
      · have hstep : insertGo T num cap (fuel + 1) j = insertGo T num cap fuel (j + 1) := by
          simp only [insertGo]
          rw [if_neg h1, if_neg h2]
        rcases ih (j + 1) with ⟨hall, heq⟩ | ⟨k, hk1, hk2, hpre, hres⟩
        · refine Or.inl ⟨?_, by rw [hstep]; exact heq⟩
          intro k hka hkb
          rcases Nat.eq_or_lt_of_le hka with rfl | hklt
          · exact ⟨h2, h1⟩
          · exact hall k hklt (by omega)
        · refine Or.inr ⟨k, by omega, by omega, ?_, ?_⟩
          · intro m hm1 hm2
            rcases Nat.eq_or_lt_of_le hm1 with rfl | hmlt
            · exact ⟨h2, h1⟩
            · exact hpre m hmlt hm2
          · rcases hres with ⟨ha, hb⟩ | ⟨ha, hb, hc⟩
            · exact Or.inl ⟨ha, by rw [hstep]; exact hb⟩
            · exact Or.inr ⟨ha, hb, by rw [hstep]; exact hc⟩

/-- The two outcomes of one `insert` call: unchanged table, or the value
written into the first empty probed slot after a prefix of occupied,
non-matching probes. -/
theorem insertNum_cases (T : List Nat) (num : Nat) :
    insertNum T num = T ∨
    (∃ k, k < T.length ∧
      T.getD (Prerequisite.hash num k T.length) 0 = 0 ∧ num ≠ 0 ∧
      (∀ m, m < k →
        T.getD (Prerequisite.hash num m T.length) 0 ≠ 0 ∧
        T.getD (Prerequisite.hash num m T.length) 0 ≠ num) ∧
      insertNum T num = T.set (Prerequisite.hash num k T.length) num) := by
  rcases insertGo_spec T num T.length T.length 0 with ⟨_, heq⟩ | ⟨k, _, hk2, hpre, hres⟩
  · exact Or.inl heq
  · rcases hres with ⟨_, hb⟩ | ⟨ha, hb, hc⟩
    · exact Or.inl hb
    · exact Or.inr ⟨k, by omega, ha, hb,
        fun m hm => hpre m (Nat.zero_le m) hm, hc⟩

theorem length_insertNum (T : List Nat) (num : Nat) :
    (insertNum T num).length = T.length := by
  rcases insertNum_cases T num with heq | ⟨k, _, _, _, _, heq⟩ <;>
    simp [heq, List.length_set]

theorem insertNum_preserves_nonzero (T : List Nat) (num : Nat)
    {i : Nat} (h : T.getD i 0 ≠ 0) :
    (insertNum T num).getD i 0 = T.getD i 0 := by
  rcases insertNum_cases T num with heq | ⟨k, _, hzero, _, _, heq⟩
  · rw [heq]
  · rw [heq]
    refine getD_set_ne ?_
    intro he
    rw [he] at hzero
    exact h hzero

/-- A key already present, or an empty slot anywhere, guarantees the key
is present after `insert` returns. -/
theorem insertNum_mem (T : List Nat) (num : Nat)
    (h : num ∈ T ∨ (0 : Nat) ∈ T) : num ∈ insertNum T num := by
  have hlen : 0 < T.length := by
    rcases h with h | h <;> exact List.length_pos_of_mem h
  obtain ⟨i, hi, hv⟩ : ∃ i, i < T.length ∧ (T.getD i 0 = num ∨ T.getD i 0 = 0) := by
    rcases h with h | h <;> obtain ⟨i, hi, he⟩ := List.getElem_of_mem h
    · exact ⟨i, hi, Or.inl (by rw [List.getD_eq_getElem _ _ hi, he])⟩
    · exact ⟨i, hi, Or.inr (by rw [List.getD_eq_getElem _ _ hi, he])⟩
  obtain ⟨k, hk, hhash⟩ := probe_surj num T.length i hlen hi
  rcases insertGo_spec T num T.length T.length 0 with ⟨hall, _⟩ | ⟨q, _, hq2, _, hres⟩
  · exfalso
    have := hall k (Nat.zero_le k) (by omega)
    rw [show Prerequisite.hash num k T.length = i from hhash] at this
    rcases hv with hv | hv
    · exact this.2 hv
    · exact this.1 hv
  · have hqlt : Prerequisite.hash num q T.length < T.length := Nat.mod_lt _ hlen
    rcases hres with ⟨ha, hb⟩ | ⟨_, _, hc⟩
    · have : insertNum T num = T := hb
      rw [this]
      rw [List.getD_eq_getElem _ _ hqlt] at ha
      exact ha ▸ List.getElem_mem hqlt
    · have : insertNum T num = T.set (Prerequisite.hash num q T.length) num := hc
      rw [this]
      have hqlt' : Prerequisite.hash num q T.length < (T.set (Prerequisite.hash num q T.length) num).length := by
        rw [List.length_set]; exact hqlt
      have hv' : (T.set (Prerequisite.hash num q T.length) num).getD (Prerequisite.hash num q T.length) 0 = num :=
        getD_set_self hqlt
      rw [List.getD_eq_getElem _ _ hqlt'] at hv'
      exact List.mem_iff_getElem.mpr ⟨Prerequisite.hash num q T.length, hqlt', hv'⟩

/-- On a completely full table, `insert` never writes anything. -/
theorem insertNum_full_noop (T : List Nat) (num : Nat)
    (hfull : ∀ i, i < T.length → T.getD i 0 ≠ 0) : insertNum T num = T := by
  rcases insertNum_cases T num with heq | ⟨k, hk, hzero, _, _, _⟩
  · exact heq
  · exact absurd hzero (hfull _ (Nat.mod_lt _ (by omega)))

/-- On a well-formed table, re-inserting a key that is already stored is
a no-op: the probe walk reaches the stored copy before any empty slot. -/
theorem insertNum_present_noop (T : List Nat) (num : Nat)
    (hwf : WellFormed T) (hnum : num ≠ 0)
    {i : Nat} (hi : i < T.length) (hv : T.getD i 0 = num) :
    insertNum T num = T := by
  obtain ⟨j, hj, hjhash, hjpre⟩ := hwf i hi (by rw [hv]; exact hnum)
  rw [hv] at hjhash hjpre
  rcases insertGo_spec T num T.length T.length 0 with ⟨hall, heq⟩ | ⟨k, _, hk2, hpre, hres⟩
  · exact heq
  · rcases Nat.lt_trichotomy k j with hlt | rfl | hlt
    · exfalso
      have hk' := hjpre k hlt
      rcases hres with ⟨ha, _⟩ | ⟨ha, _, _⟩
      · exact hk'.2 ha
      · exact hk'.1 ha
    · rcases hres with ⟨_, hb⟩ | ⟨ha, _, _⟩
      · exact hb
      · exfalso
        rw [hjhash] at ha
        rw [ha] at hv
        exact hnum hv.symm
    · exfalso
      have := (hpre j (Nat.zero_le j) hlt).2
      rw [hjhash] at this
      exact this hv

/-- `insert` preserves the well-placement invariant. -/
theorem WellFormed_insertNum (T : List Nat) (num : Nat)
    (hwf : WellFormed T) : WellFormed (insertNum T num) := by
  rcases insertNum_cases T num with heq | ⟨k, hk, hzero, hnum0, hpre, heq⟩
  · rw [heq]; exact hwf
  · rw [heq]
    intro i hi hv
    rw [List.length_set] at hi
    have hs : Prerequisite.hash num k T.length < T.length := Nat.mod_lt _ (by omega)
    by_cases his : i = Prerequisite.hash num k T.length
    · subst his
      have hval : (T.set (Prerequisite.hash num k T.length) num).getD
          (Prerequisite.hash num k T.length) 0 = num := getD_set_self hs
      rw [hval]
      refine ⟨k, by rw [List.length_set]; exact hk, by rw [List.length_set], ?_⟩
      intro m hm
      rw [List.length_set]
      have hmk : Prerequisite.hash num m T.length ≠ Prerequisite.hash num k T.length := by
        intro he
        exact absurd (probe_inj num T.length m k (by omega) hk he) (by omega)
      rw [getD_set_ne (fun he => hmk he.symm)]
      exact hpre m hm
    · have hval : (T.set (Prerequisite.hash num k T.length) num).getD i 0 = T.getD i 0 :=
        getD_set_ne (fun he => his he.symm)
      rw [hval] at hv ⊢
      obtain ⟨j, hj, hjhash, hjpre⟩ := hwf i hi hv
      refine ⟨j, by rw [List.length_set]; exact hj, by rw [List.length_set]; exact hjhash, ?_⟩
      intro m hm
      rw [List.length_set]
      have hslot := hjpre m hm
      have hne : Prerequisite.hash num k T.length ≠ Prerequisite.hash (T.getD i 0) m T.length := by
        intro he
        rw [← he] at hslot
        exact hslot.1 hzero
      rw [getD_set_ne hne]
      exact hslot

/-! ## Registration sequences -/

theorem length_registerAll (ids : List String) :
    ∀ T : List Nat, (registerAll T ids).length = T.length := by
  induction ids with
  | nil => intro T; rfl
  | cons id rest ih =>
    intro T
    show (registerAll (PrereqHashTable.insert T id) rest).length = T.length
    rw [ih (PrereqHashTable.insert T id)]
    exact length_insertNum T (Prerequisite.load id)

theorem WellFormed_registerAll (ids : List String) :
    ∀ T : List Nat, WellFormed T → WellFormed (registerAll T ids) := by
  induction ids with
  | nil => intro T h; exact h
  | cons id rest ih =>
    intro T h
    exact ih (PrereqHashTable.insert T id) (WellFormed_insertNum T (Prerequisite.load id) h)

theorem registerAll_preserves_nonzero (ids : List String) :
    ∀ (T : List Nat) (i : Nat), T.getD i 0 ≠ 0 →
      (registerAll T ids).getD i 0 = T.getD i 0 := by
  induction ids with
  | nil => intro T i _; rfl
  | cons id rest ih =>
    intro T i h
    have h1 : (insertNum T (Prerequisite.load id)).getD i 0 = T.getD i 0 :=
      insertNum_preserves_nonzero T (Prerequisite.load id) h
    show (registerAll (PrereqHashTable.insert T id) rest).getD i 0 = T.getD i 0
    rw [ih (PrereqHashTable.insert T id) i (by rw [show PrereqHashTable.insert T id = insertNum T (Prerequisite.load id) from rfl, h1]; exact h)]
    exact h1

theorem WellFormed_freshTable : WellFormed freshTable := by decide

/-- Inserting the zero value never changes the table: an empty slot
matches it in the equality branch, and a full table is never written. -/
theorem insertNum_zero_noop (T : List Nat) : insertNum T 0 = T := by
  rcases insertNum_cases T 0 with heq | ⟨_, _, _, hnum0, _, _⟩
  · exact heq
  · exact absurd rfl hnum0

/-- After one `insert`, the key is present — unless the table was already
completely full without it, in which case nothing changed. -/
theorem insertNum_outcome (T : List Nat) (num : Nat) :
    num ∈ insertNum T num ∨
    (insertNum T num = T ∧ ∀ i, i < T.length → T.getD i 0 ≠ 0) := by
  rcases insertGo_spec T num T.length T.length 0 with ⟨hall, heq⟩ | ⟨q, _, hq2, _, hres⟩
  · refine Or.inr ⟨heq, ?_⟩
    intro i hi
    have hlen : 0 < T.length := by omega
    obtain ⟨k, hk, hhash⟩ := probe_surj num T.length i hlen hi
    have := (hall k (Nat.zero_le k) (by omega)).1
    rw [show Prerequisite.hash num k T.length = i from hhash] at this
    exact this
  · have hlen : 0 < T.length := by omega
    have hqlt : Prerequisite.hash num q T.length < T.length := Nat.mod_lt _ hlen
    rcases hres with ⟨ha, hb⟩ | ⟨_, _, hc⟩
    · refine Or.inl ?_
      have hb' : insertNum T num = T := hb
      rw [hb']
      rw [List.getD_eq_getElem _ _ hqlt] at ha
      exact List.mem_iff_getElem.mpr ⟨_, hqlt, ha⟩
    · refine Or.inl ?_
      have hc' : insertNum T num = T.set (Prerequisite.hash num q T.length) num := hc
      rw [hc']
      have hqlt' : Prerequisite.hash num q T.length <
          (T.set (Prerequisite.hash num q T.length) num).length := by
        rw [List.length_set]; exact hqlt
      have hv' := getD_set_self (T := T) (v := num) hqlt
      rw [List.getD_eq_getElem _ _ hqlt'] at hv'
      exact List.mem_iff_getElem.mpr ⟨_, hqlt', hv'⟩

/-- A nonzero value present in the table stays present through any
further registrations. -/
theorem mem_registerAll_of_mem (ids : List String) :
    ∀ (T : List Nat) (num : Nat), num ≠ 0 → num ∈ T → num ∈ registerAll T ids := by
  intro T num hn hmem
  obtain ⟨i, hi, he⟩ := List.getElem_of_mem hmem
  have hgd : T.getD i 0 = num := by rw [List.getD_eq_getElem _ _ hi]; exact he
  have hgd' : (registerAll T ids).getD i 0 = num := by
    rw [registerAll_preserves_nonzero ids T i (by rw [hgd]; exact hn)]
    exact hgd
  have hi' : i < (registerAll T ids).length := by
    rw [length_registerAll ids T]; exact hi
  rw [List.getD_eq_getElem _ _ hi'] at hgd'
  exact List.mem_iff_getElem.mpr ⟨i, hi', hgd'⟩

/-- A completely full table stays completely full. -/
theorem full_registerAll_of_full (ids : List String) (T : List Nat)
    (hfull : ∀ i, i < T.length → T.getD i 0 ≠ 0) :
    ∀ i, i < (registerAll T ids).length → (registerAll T ids).getD i 0 ≠ 0 := by
  intro i hi
  rw [length_registerAll ids T] at hi
  rw [registerAll_preserves_nonzero ids T i (hfull i hi)]
  exact hfull i hi

/-- Every key registered during a pass is present in the final table,
unless that table is completely full. -/
theorem registerAll_sticky (ids : List String) :
    ∀ (T : List Nat) (id : String), id ∈ ids → Prerequisite.load id ≠ 0 →
      Prerequisite.load id ∈ registerAll T ids ∨
      ∀ i, i < (registerAll T ids).length → (registerAll T ids).getD i 0 ≠ 0 := by
  induction ids with
  | nil => intro T id h; cases h
  | cons id0 rest ih =>
    intro T id hmem hn
    rcases List.mem_cons.mp hmem with rfl | hmem'
    · rcases insertNum_outcome T (Prerequisite.load id) with hin | ⟨heq, hfull⟩
      · exact Or.inl (mem_registerAll_of_mem rest (PrereqHashTable.insert T id)
          (Prerequisite.load id) hn hin)
      · refine Or.inr ?_
        have : PrereqHashTable.insert T id = T := heq
        show ∀ i, i < (registerAll (PrereqHashTable.insert T id) rest).length →
          (registerAll (PrereqHashTable.insert T id) rest).getD i 0 ≠ 0
        rw [this]
        exact full_registerAll_of_full rest T hfull
    · exact ih (PrereqHashTable.insert T id0) id hmem' hn

/-- On a well-formed table, re-registering a key that is either present
or blocked by a full table is a no-op. -/
theorem insert_noop_of_sticky (T : List Nat) (id : String)
    (hwf : WellFormed T)
    (h : Prerequisite.load id ∈ T ∨ ∀ i, i < T.length → T.getD i 0 ≠ 0) :
    PrereqHashTable.insert T id = T := by
  by_cases hz : Prerequisite.load id = 0
  · show insertNum T (Prerequisite.load id) = T
    rw [hz]
    exact insertNum_zero_noop T
  · rcases h with hmem | hfull
    · obtain ⟨i, hi, he⟩ := List.getElem_of_mem hmem
      exact insertNum_present_noop T (Prerequisite.load id) hwf hz hi
        (by rw [List.getD_eq_getElem _ _ hi]; exact he)
    · exact insertNum_full_noop T (Prerequisite.load id) hfull

/-- Re-running an entire registration pass on its own result changes
nothing. -/
theorem registerAll_idem (T : List Nat) (ids : List String)
    (hwf : WellFormed T) :
    registerAll (registerAll T ids) ids = registerAll T ids := by
  have hwf1 : WellFormed (registerAll T ids) := WellFormed_registerAll ids T hwf
  have hnoop : ∀ id ∈ ids, PrereqHashTable.insert (registerAll T ids) id = registerAll T ids := by
    intro id hmem
    by_cases hz : Prerequisite.load id = 0
    · show insertNum _ (Prerequisite.load id) = _
      rw [hz]
      exact insertNum_zero_noop _
    · exact insert_noop_of_sticky _ id hwf1 (registerAll_sticky ids T id hmem hz)
  clear hwf hwf1
  generalize hT1 : registerAll T ids = T₁ at hnoop ⊢
  clear hT1
  induction ids with
  | nil => rfl
  | cons id0 rest ih =>
    show registerAll (PrereqHashTable.insert T₁ id0) rest = T₁
    rw [hnoop id0 (by simp)]
    exact ih (fun id hmem => hnoop id (by simp [hmem]))

/-! ## No duplicate entries -/

/-- On a well-formed table, a nonzero value occupies at most one slot. -/
theorem slot_unique (T : List Nat) (hwf : WellFormed T) {n i₁ i₂ : Nat}
    (hn : n ≠ 0) (h₁ : i₁ < T.length) (h₂ : i₂ < T.length)
    (hv₁ : T.getD i₁ 0 = n) (hv₂ : T.getD i₂ 0 = n) : i₁ = i₂ := by
  obtain ⟨j₁, hj₁, hhash₁, hpre₁⟩ := hwf i₁ h₁ (by rw [hv₁]; exact hn)
  obtain ⟨j₂, hj₂, hhash₂, hpre₂⟩ := hwf i₂ h₂ (by rw [hv₂]; exact hn)
  rw [hv₁] at hhash₁ hpre₁
  rw [hv₂] at hhash₂ hpre₂
  rcases Nat.lt_trichotomy j₁ j₂ with hlt | he | hlt
  · exfalso
    have := (hpre₂ j₁ hlt).2
    rw [hhash₁] at this
    exact this hv₁
  · rw [← hhash₁, ← hhash₂, he]
  · exfalso
    have := (hpre₁ j₂ hlt).2
    rw [hhash₂] at this
    exact this hv₂

theorem duplicate_indexes {n : Nat} {T : List Nat} (h : T.Duplicate n) :
    ∃ i₁ i₂, i₁ < i₂ ∧ i₂ < T.length ∧ T.getD i₁ 0 = n ∧ T.getD i₂ 0 = n := by
  induction h with
  | cons_mem hmem =>
    rename_i l
    obtain ⟨i, hi, he⟩ := List.getElem_of_mem hmem
    refine ⟨0, i + 1, by omega, by simp; omega, rfl, ?_⟩
    rw [List.getD_cons_succ, List.getD_eq_getElem _ _ hi]
    exact he
  | cons_duplicate hdup ih =>
    rename_i b _
    obtain ⟨i₁, i₂, hlt, hlen, hv₁, hv₂⟩ := ih
    exact ⟨i₁ + 1, i₂ + 1, by omega, by simp; omega,
      by rw [List.getD_cons_succ]; exact hv₁, by rw [List.getD_cons_succ]; exact hv₂⟩

/-- The dedup property: a well-formed table holds each nonzero value at
most once. -/
theorem count_le_one (T : List Nat) (hwf : WellFormed T) {n : Nat} (hn : n ≠ 0) :
    T.count n ≤ 1 := by
  by_contra h
  have hdup : T.Duplicate n := List.duplicate_iff_two_le_count.mpr (by omega)
  obtain ⟨i₁, i₂, hlt, hlen, hv₁, hv₂⟩ := duplicate_indexes hdup
  have := slot_unique T hwf hn (by omega) hlen hv₁ hv₂
  omega

/-! ## The loading loop -/

/-- A successful line-reading pass determines its results from the lines
alone: the final table is the starting table with every parsed
prerequisite registered in order, and running the same pass from any
other starting table produces the same tree and outcome. -/
theorem loadLines_table_indep :
    ∀ (lines : List String) (t t' : Tree) (T T' : List Nat),
      loadLines lines t T = (t', T', none) →
      T' = registerAll T (registeredKeys lines) ∧
      ∀ S : List Nat, loadLines lines t S = (t', registerAll S (registeredKeys lines), none) := by
  intro lines
  induction lines with
  | nil =>
    intro t t' T T' h
    simp only [loadLines] at h
    obtain ⟨h1, h2, -⟩ := Prod.mk.injEq .. ▸ h
    cases h
    exact ⟨rfl, fun S => rfl⟩
  | cons line rest ih =>
    intro t t' T T' h
    rcases hp : parseLine line with ⟨c, e⟩
    cases e with
    | none =>
      have hinit : ∀ S : List Nat,
          Course.init line S = (c, registerAll S c.prerequisites, none) := by
        intro S
        simp [Course.init, hp, registerAll]
      have hstep : ∀ S : List Nat, loadLines (line :: rest) t S
          = loadLines rest (Insert t c) (registerAll S c.prerequisites) := by
        intro S
        simp only [loadLines, hinit S]
      rw [hstep T] at h
      obtain ⟨h1, h2⟩ := ih (Insert t c) t' (registerAll T c.prerequisites) T' h
      have hreg : registeredKeys (line :: rest) = c.prerequisites ++ registeredKeys rest := by
        simp [registeredKeys, hp]
      have happ : ∀ S : List Nat, registerAll S (c.prerequisites ++ registeredKeys rest)
          = registerAll (registerAll S c.prerequisites) (registeredKeys rest) := by
        intro S
        simp [registerAll, List.foldl_append]
      constructor
      · rw [hreg, happ T]
        exact h1
      · intro S
        rw [hstep S, hreg, happ S]
        exact h2 (registerAll S c.prerequisites)
    | some e' =>
      exfalso
      have hinit : Course.init line T = (c, T, some e') := by
        simp [Course.init, hp]
      simp only [loadLines, hinit] at h
      simp at h

/-! ## Claim C4 -/

/-- C4 counterexample: after 27 pairwise-distinct 7-character keys have
been registered, the 27-slot table is full, and registering a 28th
distinct 7-character key returns with that key absent from the set —
refuting "present after `register` regardless of how many distinct keys
have previously been registered". -/
theorem claim_C4_counterexample :
    Prerequisite.load "CSCI137" ∉
      registerAll freshTable
        ["CSCI110", "CSCI111", "CSCI112", "CSCI113", "CSCI114", "CSCI115",
         "CSCI116", "CSCI117", "CSCI118", "CSCI119", "CSCI120", "CSCI121",
         "CSCI122", "CSCI123", "CSCI124", "CSCI125", "CSCI126", "CSCI127",
         "CSCI128", "CSCI129", "CSCI130", "CSCI131", "CSCI132", "CSCI133",
         "CSCI134", "CSCI135", "CSCI136", "CSCI137"] := by
  decide

/-- C4 (amended): `register(key)` leaves the key present in the set
whenever the key is already present or the table still has a free slot;
with 27 distinct keys already registered the table is full and a new key
is silently dropped (see the counterexample). -/
theorem claim_C4_register_succeeds (T : List Nat) (id : String)
    (h : Prerequisite.load id ∈ T ∨ (0 : Nat) ∈ T) :
    Prerequisite.load id ∈ PrereqHashTable.insert T id :=
  insertNum_mem T (Prerequisite.load id) h

/-- Witness for C4 (amended): registering a key into the fresh (empty)
table leaves it present. -/
theorem claim_C4_witness :
    Prerequisite.load "MATH201" ∈ PrereqHashTable.insert freshTable "MATH201" :=
  claim_C4_register_succeeds freshTable "MATH201" (Or.inr (by decide))

/-! ## Claim C6 -/

/-- C6 counterexample: with the 27-slot table already holding 27 other
distinct keys, registering the same key twice (N = 2) leaves zero entries
for it, not exactly one, and the validation pass never visits it. -/
theorem claim_C6_counterexample :
    (registerAll freshTable
      (["MATH200", "MATH201", "MATH202", "MATH203", "MATH204", "MATH205",
        "MATH206", "MATH207", "MATH208", "MATH209", "MATH210", "MATH211",
        "MATH212", "MATH213", "MATH214", "MATH215", "MATH216", "MATH217",
        "MATH218", "MATH219", "MATH220", "MATH221", "MATH222", "MATH223",
        "MATH224", "MATH225", "MATH226"] ++ ["PHYS101", "PHYS101"])).count
      (Prerequisite.load "PHYS101") ≠ 1 ∧
    (registerAll freshTable
      (["MATH200", "MATH201", "MATH202", "MATH203", "MATH204", "MATH205",
        "MATH206", "MATH207", "MATH208", "MATH209", "MATH210", "MATH211",
        "MATH212", "MATH213", "MATH214", "MATH215", "MATH216", "MATH217",
        "MATH218", "MATH219", "MATH220", "MATH221", "MATH222", "MATH223",
        "MATH224", "MATH225", "MATH226"] ++ ["PHYS101", "PHYS101"])).count
      (Prerequisite.load "PHYS101") = 0 := by
  constructor <;> decide

/-- C6 (amended): the reference set never holds two logically equal keys —
after any registration sequence from the fresh table, each nonzero packed
value occupies at most one slot, so the validation pass (which walks the
non-empty slots) visits that key at most once; registering the same key
N ≥ 1 times therefore leaves at most one entry (exactly one unless the
table filled up without it, see the counterexample). -/
theorem claim_C6_dedup (ids : List String) (n : Nat) (hn : n ≠ 0) :
    (registerAll freshTable ids).count n ≤ 1 ∧
    ((registerAll freshTable ids).filter (fun v => v ≠ 0)).count n ≤ 1 := by
  have h1 : (registerAll freshTable ids).count n ≤ 1 :=
    count_le_one _ (WellFormed_registerAll ids freshTable WellFormed_freshTable) hn
  exact ⟨h1, le_trans (List.Sublist.count_le (List.filter_sublist _) n) h1⟩

/-- Witness for C6: registering the same key twice into a fresh table
leaves at most one entry. -/
theorem claim_C6_witness :
    (registerAll freshTable ["PHYS101", "PHYS101"]).count
      (Prerequisite.load "PHYS101") ≤ 1 ∧
    ((registerAll freshTable ["PHYS101", "PHYS101"]).filter (fun v => v ≠ 0)).count
      (Prerequisite.load "PHYS101") ≤ 1 :=
  claim_C6_dedup ["PHYS101", "PHYS101"] (Prerequisite.load "PHYS101") (by decide)

/-! ## Claim C8 -/

/-- C8: loading the same valid catalog twice in a row yields the very
same driver state and success both times — the second load drains the
tree and rebuilds it to the same contents (hence an identical
ascending-order listing), and its validation pass succeeds again.  The
hypothesis `WellFormed st.table` holds for every state reachable from a
fresh driver. -/
theorem claim_C8_reload_idempotent (lines : List String)
    (st st' : DriverState) (n : Nat) (hwf : WellFormed st.table)
    (h : Driver.loadCourses lines st = (st', Except.ok n)) :
    Driver.loadCourses lines st' = (st', Except.ok n) := by
  rcases hll : loadLines lines .leaf st.table with ⟨t, T, e⟩
  cases e with
  | some e' =>
    exfalso
    simp only [Driver.loadCourses, hll] at h
    simp at h
  | none =>
    simp only [Driver.loadCourses, hll] at h
    cases hcp : checkPrerequisites t T with
    | some k =>
      exfalso
      rw [hcp] at h
      simp at h
    | none =>
      rw [hcp] at h
      simp only [Prod.mk.injEq, Except.ok.injEq] at h
      obtain ⟨hst, hn⟩ := h
      obtain ⟨hT, hall⟩ := loadLines_table_indep lines .leaf t st.table T hll
      have hT2 : registerAll T (registeredKeys lines) = T := by
        rw [hT]
        exact registerAll_idem st.table (registeredKeys lines) hwf
      have hll2 : loadLines lines .leaf T = (t, T, none) := by
        have := hall T
        rw [hT2] at this
        exact this
      have hgoal : Driver.loadCourses lines ⟨t, T⟩ = (⟨t, T⟩, .ok lines.length) := by
        simp only [Driver.loadCourses, hll2, hcp]
      rw [← hst, ← hn]
      exact hgoal

/-- Witness for C8 at a concrete two-course catalog loaded twice from a
fresh driver. -/
theorem claim_C8_witness :
    Driver.loadCourses ["CSCI100,Introduction,", "CSCI200,Data Structures,CSCI100"]
      (Driver.loadCourses ["CSCI100,Introduction,", "CSCI200,Data Structures,CSCI100"]
        DriverState.fresh).1
    = ((Driver.loadCourses ["CSCI100,Introduction,", "CSCI200,Data Structures,CSCI100"]
        DriverState.fresh).1, Except.ok 2) :=
  claim_C8_reload_idempotent
    ["CSCI100,Introduction,", "CSCI200,Data Structures,CSCI100"]
    DriverState.fresh _ 2 (by decide) (by decide)

/-! ## Round trip through the byte buffer -/

/-- Reading the buffer back recovers exactly the bytes that were packed,
for byte lists of nonzero bytes that fit the read fuel. -/
theorem decodeBytes_packBytes :
    ∀ (l : List Char) (fuel : Nat),
      (∀ c ∈ l, 0 < c.toNat ∧ c.toNat < 256) → l.length ≤ fuel →
      decodeBytes fuel (packBytes l) = l := by
  intro l
  induction l with
  | nil =>
    intro fuel _ _
    cases fuel <;> simp [decodeBytes, packBytes]
  | cons c cs ih =>
    intro fuel hc hlen
    cases fuel with
    | zero => simp at hlen
    | succ fuel' =>
      have hc0 := hc c (by simp)
      have hmod : (c.toNat + 256 * packBytes cs) % 256 = c.toNat := by
        rw [Nat.add_mul_mod_self_left]
        exact Nat.mod_eq_of_lt hc0.2
      have hdiv : (c.toNat + 256 * packBytes cs) / 256 = packBytes cs := by
        rw [Nat.add_mul_div_left _ _ (by omega : 0 < 256)]
        rw [Nat.div_eq_of_lt hc0.2]
        omega
      show decodeBytes (fuel' + 1) (packBytes (c :: cs)) = c :: cs
      simp only [packBytes, decodeBytes, hmod, hdiv]
      rw [if_neg (by omega : ¬ c.toNat = 0)]
      rw [Char.ofNat_toNat]
      rw [ih fuel' (fun x hx => hc x (by simp [hx]))
        (by simp only [List.length_cons] at hlen; omega)]

/-! ## Claim C10 -/

/-- C10: registration stores at most the first 7 characters of a
prerequisite field.  Two fields agreeing on their first 7 characters
produce identical `insert` calls; registering the second after the first
changes nothing on a well-formed table (one entry for both); and the
string the validation pass checks against the store is the truncated
7-character key, not the full field. -/
theorem claim_C10_truncated_registration :
    (∀ (T : List Nat) (s t : String), s.data.take 7 = t.data.take 7 →
      PrereqHashTable.insert T s = PrereqHashTable.insert T t) ∧
    (∀ (T : List Nat) (s t : String), WellFormed T → s.data.take 7 = t.data.take 7 →
      PrereqHashTable.insert (PrereqHashTable.insert T s) t = PrereqHashTable.insert T s) ∧
    (∀ s : String, (∀ c ∈ s.data.take 7, 0 < c.toNat ∧ c.toNat < 256) →
      Prerequisite.getString (Prerequisite.load s) = String.mk (s.data.take 7)) := by
  refine ⟨?_, ?_, ?_⟩
  · intro T s t h
    show insertNum T (Prerequisite.load s) = insertNum T (Prerequisite.load t)
    rw [show Prerequisite.load s = Prerequisite.load t from by
      simp [Prerequisite.load, h]]
  · intro T s t hwf h
    have hload : Prerequisite.load t = Prerequisite.load s := by
      simp [Prerequisite.load, h]
    show insertNum (PrereqHashTable.insert T s) (Prerequisite.load t)
      = PrereqHashTable.insert T s
    rw [hload]
    rcases insertNum_outcome T (Prerequisite.load s) with hin | ⟨heq, hfull⟩
    · exact insert_noop_of_sticky _ s (WellFormed_insertNum T _ hwf) (Or.inl hin)
    · have heq' : PrereqHashTable.insert T s = T := heq
      rw [heq']
      exact heq
  · intro s h
    show String.mk (decodeBytes 8 (packBytes (s.data.take 7))) = _
    rw [decodeBytes_packBytes (s.data.take 7) 8 h
      (by have := List.length_take_le 7 s.data; omega)]

/-- Witness for C10: a 10-character field and its 7-character prefix are
registered identically, and the checked key is the truncation. -/
theorem claim_C10_witness :
    PrereqHashTable.insert freshTable "ABCDEFGHIJ"
      = PrereqHashTable.insert freshTable "ABCDEFG" ∧
    Prerequisite.getString (Prerequisite.load "ABCDEFGHIJ")
      = String.mk ("ABCDEFGHIJ".data.take 7) :=
  ⟨claim_C10_truncated_registration.1 freshTable "ABCDEFGHIJ" "ABCDEFG" (by decide),
   claim_C10_truncated_registration.2.2 "ABCDEFGHIJ" (by decide)⟩

/-! ## Claim C7 -/

/-- C7 counterexample: on the line `",,"` the title field is empty, yet
parsing fails with the invalid-course-number error, not the empty-title
one — the key check runs first, so "fails with `EmptyTitle` exactly when
the title field is empty" does not hold as stated. -/
theorem claim_C7_counterexample :
    titleField ",," = "" ∧
    (parseLine ",,").2 = some ParseError.malformedKey ∧
    (parseLine ",,").2 ≠ some ParseError.emptyTitle := by
  refine ⟨?_, ?_, ?_⟩ <;> decide

/-- C7 (amended): parsing a record line fails with `MalformedKey` exactly
when the key field's length is not 7; it fails with `EmptyTitle` exactly
when the key field's length is 7 and the title field is empty; on either
failure the record under construction is left cleared and the hash table
untouched. -/
theorem claim_C7_parse_errors (line : String) (T : List Nat) :
    ((Course.init line T).2.2 = some ParseError.malformedKey ↔
      (keyField line).data.length ≠ 7) ∧
    ((Course.init line T).2.2 = some ParseError.emptyTitle ↔
      (keyField line).data.length = 7 ∧ (titleField line).data = []) ∧
    ((Course.init line T).2.2 ≠ none →
      (Course.init line T).1 = Course.cleared ∧ (Course.init line T).2.1 = T) := by
  by_cases hk : (keyField line).data.length = 7
  · have hk' : ¬ (keyField line).data.length ≠ 7 := fun h => h hk
    by_cases ht : (titleField line).data.isEmpty = true
    · have hp : parseLine line = (Course.cleared, some .emptyTitle) := by
        simp only [parseLine]
        rw [if_neg hk', if_pos ht]
      have hi : Course.init line T = (Course.cleared, T, some .emptyTitle) := by
        simp only [Course.init, hp]
      rw [hi]
      rw [List.isEmpty_iff] at ht
      exact ⟨⟨fun h => ParseError.noConfusion (Option.some.inj h), fun h => absurd hk h⟩,
        ⟨fun _ => ⟨hk, ht⟩, fun _ => rfl⟩,
        fun _ => ⟨rfl, rfl⟩⟩
    · have hp : parseLine line
          = (Course.mk (keyField line) (titleField line) (prereqFields line), none) := by
        simp only [parseLine]
        rw [if_neg hk', if_neg ht]
      have hi : Course.init line T
          = (Course.mk (keyField line) (titleField line) (prereqFields line),
             registerAll T (prereqFields line), none) := by
        simp only [Course.init, hp]
        rfl
      rw [hi]
      rw [List.isEmpty_iff] at ht
      exact ⟨⟨fun h => Option.noConfusion h, fun h => absurd hk h⟩,
        ⟨fun h => Option.noConfusion h, fun h => absurd h.2 ht⟩,
        fun h => absurd rfl h⟩
  · have hp : parseLine line = (Course.cleared, some .malformedKey) := by
      simp only [parseLine]
      rw [if_pos hk]
    have hi : Course.init line T = (Course.cleared, T, some .malformedKey) := by
      simp only [Course.init, hp]
    rw [hi]
    exact ⟨⟨fun _ => hk, fun _ => rfl⟩,
      ⟨fun h => ParseError.noConfusion (Option.some.inj h), fun h => absurd h.1 hk⟩,
      fun _ => ⟨rfl, rfl⟩⟩

/-- Witness for C7 at a malformed 4-character key. -/
theorem claim_C7_witness :
    (Course.init "CS10,Bad Key," freshTable).2.2 = some ParseError.malformedKey ∧
    (Course.init "CS10,Bad Key," freshTable).1 = Course.cleared :=
  ⟨(claim_C7_parse_errors "CS10,Bad Key," freshTable).1.mpr (by decide),
   ((claim_C7_parse_errors "CS10,Bad Key," freshTable).2.2 (by decide)).1⟩

/-! ## Claim C9 -/

/-- Inserting a record whose key equals the key already at the root of a
one-node tree routes it to the right child: the equal-key comparison
takes the `else` branch. -/
theorem Insert_dup_pair (A B : Course) (heq : B.number = A.number) :
    Insert (Insert .leaf A) B = .node .leaf A (.node .leaf B .leaf) := by
  show Insert (.node .leaf A .leaf) B = _
  have h : strLt B.number A.number = false := by
    rw [heq]; exact strLt_irrefl _
  simp [Insert, h]

/-- In a two-node tree of equal-keyed records, no search ever returns the
record that was inserted second: every query stops at the root or falls
off the tree. -/
theorem Search_dup_pair (A B : Course) (heq : B.number = A.number)
    (hne : B ≠ A) (hnc : B ≠ Course.cleared) :
    ∀ k, Search (Insert (Insert .leaf A) B) k ≠ B := by
  intro k
  rw [Insert_dup_pair A B heq]
  by_cases h : A.number = k
  · have hS : Search (.node .leaf A (.node .leaf B .leaf)) k = A := by
      simp [Search, h]
    rw [hS]
    exact fun he => hne he.symm
  · cases hlt : strLt k A.number with
    | true =>
      have hS : Search (.node .leaf A (.node .leaf B .leaf)) k = Course.cleared := by
        simp [Search, h, hlt]
      rw [hS]
      exact fun he => hnc he.symm
    | false =>
      have hS : Search (.node .leaf A (.node .leaf B .leaf)) k = Course.cleared := by
        simp [Search, h, hlt, heq]
      rw [hS]
      exact fun he => hnc he.symm

/-- C9 counterexample: for two equal-keyed records inserted into the
empty store, the later-inserted record is never returned by `Search` in
BOTH insertion orders, so "in exactly one of the two possible insertion
orders the later-inserted record is never returned" is false at this
input. -/
theorem claim_C9_counterexample :
    ((∀ k, Search (Insert (Insert .leaf ⟨"CSCI100", "First", []⟩)
        ⟨"CSCI100", "Second", []⟩) k ≠ ⟨"CSCI100", "Second", []⟩) ∧
     (∀ k, Search (Insert (Insert .leaf ⟨"CSCI100", "Second", []⟩)
        ⟨"CSCI100", "First", []⟩) k ≠ ⟨"CSCI100", "First", []⟩)) ∧
    ¬(((∀ k, Search (Insert (Insert .leaf ⟨"CSCI100", "First", []⟩)
          ⟨"CSCI100", "Second", []⟩) k ≠ ⟨"CSCI100", "Second", []⟩) ∧
       ¬(∀ k, Search (Insert (Insert .leaf ⟨"CSCI100", "Second", []⟩)
          ⟨"CSCI100", "First", []⟩) k ≠ ⟨"CSCI100", "First", []⟩)) ∨
      (¬(∀ k, Search (Insert (Insert .leaf ⟨"CSCI100", "First", []⟩)
          ⟨"CSCI100", "Second", []⟩) k ≠ ⟨"CSCI100", "Second", []⟩) ∧
       (∀ k, Search (Insert (Insert .leaf ⟨"CSCI100", "Second", []⟩)
          ⟨"CSCI100", "First", []⟩) k ≠ ⟨"CSCI100", "First", []⟩))) := by
  have p1 := Search_dup_pair ⟨"CSCI100", "First", []⟩ ⟨"CSCI100", "Second", []⟩
    rfl (by decide) (by decide)
  have p2 := Search_dup_pair ⟨"CSCI100", "Second", []⟩ ⟨"CSCI100", "First", []⟩
    rfl (by decide) (by decide)
  exact ⟨⟨p1, p2⟩, fun hx => hx.elim (fun hc => hc.2 p2) (fun hc => hc.1 p1)⟩

/-- C9 (amended): a record with an already-stored key is silently routed
to the right (stored, not rejected, overwritten or merged — both records
appear in the enumeration), and in EACH of the two insertion orders the
later-inserted of the two equal-keyed records is never returned by
`Search` (the descent always stops at the earlier one). -/
theorem claim_C9_duplicate_routed_right (A B : Course)
    (heq : B.number = A.number) (hne : B ≠ A) (hnc : B ≠ Course.cleared) :
    Insert (Insert .leaf A) B = .node .leaf A (.node .leaf B .leaf) ∧
    inOrder (Insert (Insert .leaf A) B) = [A, B] ∧
    ∀ k, Search (Insert (Insert .leaf A) B) k ≠ B := by
  refine ⟨Insert_dup_pair A B heq, ?_, Search_dup_pair A B heq hne hnc⟩
  rw [Insert_dup_pair A B heq]
  simp [inOrder]

/-- Witness for C9 (amended) at a concrete pair of equal-keyed records
and a concrete query. -/
theorem claim_C9_witness :
    Insert (Insert .leaf ⟨"CSCI100", "First", []⟩) ⟨"CSCI100", "Second", []⟩
      = .node .leaf ⟨"CSCI100", "First", []⟩ (.node .leaf ⟨"CSCI100", "Second", []⟩ .leaf) ∧
    Search (Insert (Insert .leaf ⟨"CSCI100", "First", []⟩) ⟨"CSCI100", "Second", []⟩)
      "CSCI100" ≠ ⟨"CSCI100", "Second", []⟩ :=
  ⟨(claim_C9_duplicate_routed_right ⟨"CSCI100", "First", []⟩ ⟨"CSCI100", "Second", []⟩
      rfl (by decide) (by decide)).1,
   (claim_C9_duplicate_routed_right ⟨"CSCI100", "First", []⟩ ⟨"CSCI100", "Second", []⟩
      rfl (by decide) (by decide)).2.2 "CSCI100"⟩

/-! ## Claims C3 and C5 -/

/-- C5: the code never clears the prerequisite table between loads.
After a successful first load of a catalog that registered the key
`BBBBBBB`, that key is still present in the driver's table — which is
exactly the table the next call to `loadCourses` starts parsing with —
contradicting "the Reference Set is empty at the start of every load". -/
theorem claim_C5_stale_table :
    (Driver.loadCourses ["AAAAAAA,Alpha,BBBBBBB", "BBBBBBB,Beta"] DriverState.fresh).2
      = Except.ok 2 ∧
    Prerequisite.load "BBBBBBB" ∈
      (Driver.loadCourses ["AAAAAAA,Alpha,BBBBBBB", "BBBBBBB,Beta"] DriverState.fresh).1.table := by
  refine ⟨?_, ?_⟩ <;> decide

/-- C3: the "if and only if" fails on the code because the table is never
cleared.  After a first load that registered `BBBBBBB`, a second load of
a catalog with no prerequisites at all (`registeredKeys` is empty)
nevertheless reaches the failed state reporting `BBBBBBB` — an
unresolved-prerequisite failure with no prerequisite key registered
during that load. -/
theorem claim_C3_stale_failure :
    (Driver.loadCourses ["AAAAAAA,Alpha,BBBBBBB", "BBBBBBB,Beta"] DriverState.fresh).2
      = Except.ok 2 ∧
    registeredKeys ["CCCCCCC,Gamma"] = [] ∧
    (Driver.loadCourses ["CCCCCCC,Gamma"]
      (Driver.loadCourses ["AAAAAAA,Alpha,BBBBBBB", "BBBBBBB,Beta"] DriverState.fresh).1).2
      = Except.error (LoadError.unresolved "BBBBBBB") := by
  refine ⟨?_, ?_, ?_⟩ <;> decide

/-! ## Claim C1 -/

/-- C1: for every sequence of course records with pairwise-distinct keys,
in every permutation of the insertion order, the in-order enumeration of
the binary search tree yields the records' keys in strictly increasing
lexicographic order. -/
theorem claim_C1_inOrder_strictly_sorted (l l' : List Course)
    (hperm : l.Perm l') (hnodup : (l.map Course.number).Nodup) :
    (treeKeys (buildTree l')).Pairwise (fun a b => strLt a b = true) := by
  have hnodup' : (l'.map Course.number).Nodup := (hperm.map Course.number).nodup hnodup
  exact sorted_treeKeys (IsBST_buildTree hnodup')

/-- Witness for C1 at a concrete three-record catalog, inserted in a
non-sorted permutation of the listing order. -/
theorem claim_C1_witness :
    (treeKeys (buildTree
      [⟨"CSCI300", "Algorithms", []⟩, ⟨"CSCI100", "Intro", []⟩,
       ⟨"CSCI200", "Structures", []⟩])).Pairwise (fun a b => strLt a b = true) :=
  claim_C1_inOrder_strictly_sorted
    [⟨"CSCI100", "Intro", []⟩, ⟨"CSCI200", "Structures", []⟩, ⟨"CSCI300", "Algorithms", []⟩]
    [⟨"CSCI300", "Algorithms", []⟩, ⟨"CSCI100", "Intro", []⟩, ⟨"CSCI200", "Structures", []⟩]
    (by decide) (by decide)

/-! ## Claim C2 -/

/-- C2: on a catalog with pairwise-distinct keys, `Search` returns
exactly the record inserted with the queried key (number, title and
prerequisites), and for a key never inserted it returns the empty record,
so `Exists` is false. -/
theorem claim_C2_Search_exact (l : List Course)
    (hnodup : (l.map Course.number).Nodup) :
    (∀ c ∈ l, Search (buildTree l) c.number = c) ∧
    (∀ k, k ∉ l.map Course.number →
      Search (buildTree l) k = Course.cleared ∧ TreeExists (buildTree l) k = false) := by
  have hb := IsBST_buildTree hnodup
  have hperm := inOrder_buildTree l
  constructor
  · intro c hc
    exact Search_mem hb (hperm.mem_iff.mpr hc)
  · intro k hk
    have hk' : k ∉ treeKeys (buildTree l) := by
      intro hmem
      exact hk ((hperm.map Course.number).mem_iff.mp hmem)
    have hs := Search_not_mem hb hk'
    refine ⟨hs, ?_⟩
    rw [TreeExists, hs]
    rfl

/-- Witness for C2: a stored record is found intact, a missing key gives
the not-found outcome. -/
theorem claim_C2_witness :
    Search (buildTree
      [⟨"CSCI300", "Algorithms", ["CSCI200"]⟩, ⟨"CSCI100", "Intro", []⟩,
       ⟨"CSCI200", "Structures", ["CSCI100"]⟩]) "CSCI200"
      = ⟨"CSCI200", "Structures", ["CSCI100"]⟩ ∧
    TreeExists (buildTree
      [⟨"CSCI300", "Algorithms", ["CSCI200"]⟩, ⟨"CSCI100", "Intro", []⟩,
       ⟨"CSCI200", "Structures", ["CSCI100"]⟩]) "MATH101" = false :=
  ⟨(claim_C2_Search_exact
      [⟨"CSCI300", "Algorithms", ["CSCI200"]⟩, ⟨"CSCI100", "Intro", []⟩,
       ⟨"CSCI200", "Structures", ["CSCI100"]⟩] (by decide)).1
      ⟨"CSCI200", "Structures", ["CSCI100"]⟩ (by decide),
   ((claim_C2_Search_exact
      [⟨"CSCI300", "Algorithms", ["CSCI200"]⟩, ⟨"CSCI100", "Intro", []⟩,
       ⟨"CSCI200", "Structures", ["CSCI100"]⟩] (by decide)).2
      "MATH101" (by decide)).2⟩

end ProjectTwo
